import Mathlib

/-!
Verification of the similarity-based image clustering and case-based
classification logic of the `data-tools` repository
(`scripts/image_cluster.py` and `scripts/image_case_classifier.py`).

Vectors are modelled as lists of rationals; the similarity metric is an
abstract parameter `sim : Vec → Vec → ℚ` mirroring
`ImageEmbedding.compute_similarity`, and the embedding provider is an
abstract `encode : String → Option Vec` mirroring
`ImageEmbedding.encode_image` (`none` models a per-item embedding failure).
Python dicts are modelled as association lists in key-insertion order.
-/

namespace DataTools

/-- An embedding vector (`np.ndarray` in the source). -/
abbrev Vec := List ℚ

/-! ### Association-list model of Python dicts (insertion-ordered) -/

/-- `d.get(k)` / `k in d`: first value stored under key `k`. -/
def getVal (m : List (String × α)) (k : String) : Option α :=
  match m with
  | [] => none
  | (k', v) :: rest => if k' = k then some v else getVal rest k

/-- `del d[k]`: remove the entry for key `k` (no-op when absent). -/
def delKey (m : List (String × α)) (k : String) : List (String × α) :=
  match m with
  | [] => []
  | (k', v) :: rest => if k' = k then rest else (k', v) :: delKey rest k

/-- In-place mutation of the value stored under key `k`
(`d[k].append(...)`, `d[k].pop(i)`): apply `f` to the value at `k`. -/
def updateKey (m : List (String × α)) (k : String) (f : α → α) :
    List (String × α) :=
  match m with
  | [] => []
  | (k', v) :: rest =>
    if k' = k then (k', f v) :: rest else (k', v) :: updateKey rest k f

/-- `d[k] = v`: replace the value at `k` in place, or append a fresh entry. -/
def setKey (m : List (String × α)) (k : String) (v : α) :
    List (String × α) :=
  match m with
  | [] => [(k, v)]
  | (k', v') :: rest =>
    if k' = k then (k', v) :: rest else (k', v') :: setKey rest k v

/-- `defaultdict(list)` accumulation `d[k].append(x)`: append `x` to the
list at `k`, creating the entry (at the end, insertion order) if absent. -/
def pushVal (m : List (String × List α)) (k : String) (x : α) :
    List (String × List α) :=
  match m with
  | [] => [(k, [x])]
  | (k', xs) :: rest =>
    if k' = k then (k', xs ++ [x]) :: rest else (k', xs) :: pushVal rest k x

/-! ### `ImageCluster._cluster_by_similarity` (image_cluster.py:73-119) -/

/-- Inner loop of `_cluster_by_similarity`: scan the indices `js`
(`range(i+1, n)` at the call site); an unassigned `j` whose similarity to
the seed vector `vi` reaches the threshold is appended to the current
cluster's member list and marked assigned. -/
def clusterScan (sim : Vec → Vec → ℚ) (embeddings : List Vec)
    (image_paths : List String) (tau : ℚ) (vi : Vec) :
    List Nat → List String → List Bool → List String × List Bool
  | [], members, assigned => (members, assigned)
  | j :: js, members, assigned =>
    if assigned.getD j false then
      clusterScan sim embeddings image_paths tau vi js members assigned
    else if tau ≤ sim vi (embeddings.getD j []) then
      clusterScan sim embeddings image_paths tau vi js
        (members ++ [image_paths.getD j ""]) (assigned.set j true)
    else
      clusterScan sim embeddings image_paths tau vi js members assigned

/-- Outer loop of `_cluster_by_similarity`: for each index `i` in turn
(`range(n)` at the call site), an unassigned `i` opens cluster `cluster_id`
seeded with `image_paths[i]`, the later indices are scanned, and
`cluster_id` advances. -/
def clusterLoop (sim : Vec → Vec → ℚ) (embeddings : List Vec)
    (image_paths : List String) (tau : ℚ) :
    List Nat → Nat → List (Nat × List String) → List Bool →
      List (Nat × List String)
  | [], _, clusters, _ => clusters
  | i :: is, cluster_id, clusters, assigned =>
    if assigned.getD i false then
      clusterLoop sim embeddings image_paths tau is cluster_id clusters
        assigned
    else
      let scan := clusterScan sim embeddings image_paths tau
        (embeddings.getD i [])
        (List.range' (i + 1) (embeddings.length - (i + 1)))
        [image_paths.getD i ""] (assigned.set i true)
      clusterLoop sim embeddings image_paths tau is (cluster_id + 1)
        (clusters ++ [(cluster_id, scan.1)]) scan.2

/-- `ImageCluster._cluster_by_similarity`: greedy single-pass threshold
clustering over pre-computed vectors. -/
def cluster_by_similarity (sim : Vec → Vec → ℚ) (embeddings : List Vec)
    (image_paths : List String) (tau : ℚ) : List (Nat × List String) :=
  clusterLoop sim embeddings image_paths tau
    (List.range embeddings.length) 0 []
    (List.replicate embeddings.length false)

/-! ### Embedding the batch (image_cluster.py:50-63, 140-151) -/

/-- The vectorisation loop shared by `cluster_images` and
`cluster_by_kmeans`: encode each path, keeping the vector and the path of
each successfully embedded item, in input order. -/
def embedBatch (encode : String → Option Vec) :
    List String → List Vec × List String
  | [] => ([], [])
  | p :: ps =>
    let rest := embedBatch encode ps
    match encode p with
    | some e => (e :: rest.1, p :: rest.2)
    | none => rest

/-- `ImageCluster.cluster_images`: embed the batch, return `{}` when no
item embedded successfully, otherwise cluster by similarity threshold. -/
def cluster_images (sim : Vec → Vec → ℚ) (encode : String → Option Vec)
    (image_paths : List String) (tau : ℚ) : List (Nat × List String) :=
  let batch := embedBatch encode image_paths
  if batch.1.length = 0 then []
  else cluster_by_similarity sim batch.1 batch.2 tau

/-! ### `ImageCluster.cluster_by_kmeans` (image_cluster.py:121-172) -/

/-- Configuration handed to the external k-means routine
(`KMeans(n_clusters=..., random_state=42, n_init=10)`). -/
structure KMeansConfig where
  n_clusters : Nat
  random_state : Nat
  n_init : Nat
  deriving Repr, DecidableEq

/-- The cluster-count selection of `cluster_by_kmeans`: an explicit count
is taken as given; `None` auto-selects `min(count // 3, 10)` then at
least `1`. -/
def kmeansConfig (count : Nat) (n_clusters : Option Nat) : KMeansConfig :=
  { n_clusters :=
      match n_clusters with
      | some k => k
      | none => max 1 (min (count / 3) 10)
    random_state := 42
    n_init := 10 }

/-- The result-organisation loop of `cluster_by_kmeans`:
`clusters[label].append(valid_paths[idx])` over the fitted labels
(defaultdict modelled by label-keyed association list in first-seen
order). -/
def groupByLabel : List Nat → List String → List (Nat × List String) →
    List (Nat × List String)
  | [], _, clusters => clusters
  | _, [], clusters => clusters
  | l :: ls, p :: ps, clusters =>
    groupByLabel ls ps (pushLabel clusters l p)
where
  /-- `defaultdict(list)` accumulation keyed by an integer label. -/
  pushLabel : List (Nat × List String) → Nat → String →
      List (Nat × List String)
    | [], l, p => [(l, [p])]
    | (l', xs) :: rest, l, p =>
      if l' = l then (l', xs ++ [p]) :: rest
      else (l', xs) :: pushLabel rest l p

/-- `ImageCluster.cluster_by_kmeans`: embed the batch, return `{}` when no
item embedded successfully, otherwise auto-select the cluster count when
none is given and delegate the partitioning to the external k-means
routine `kmeansFit`, grouping paths by fitted label. -/
def cluster_by_kmeans (kmeansFit : KMeansConfig → List Vec → List Nat)
    (encode : String → Option Vec) (image_paths : List String)
    (n_clusters : Option Nat) : List (Nat × List String) :=
  let batch := embedBatch encode image_paths
  if batch.1.length = 0 then []
  else
    let cfg := kmeansConfig batch.1.length n_clusters
    groupByLabel (kmeansFit cfg batch.1) batch.2 []

/-! ### `CaseLibrary` (image_case_classifier.py:20-186) -/

/-- One persisted case record (`{"path", "embedding", "description"}`);
`embedding = none` models a JSON object missing the `embedding` field. -/
structure CaseInfo where
  path : String
  embedding : Option Vec
  description : String
  deriving Repr, DecidableEq

/-- The in-memory `CaseLibrary` state: `cases` maps a category name to its
ordered case records, `embeddings` caches the vectors per category. -/
structure CaseLibraryState where
  cases : List (String × List CaseInfo)
  embeddings : List (String × List Vec)
  deriving Repr, DecidableEq

/-- `CaseLibrary.add_case`: vectorise the image (failure returns `False`
leaving the library unchanged); create empty lists for a new category,
then append the case record and its vector. -/
def add_case (st : CaseLibraryState) (case_name : String)
    (image_path : String) (encode : String → Option Vec)
    (description : String) : Bool × CaseLibraryState :=
  match encode image_path with
  | none => (false, st)
  | some v =>
    let st1 : CaseLibraryState :=
      if getVal st.cases case_name = none then
        ⟨st.cases ++ [(case_name, [])], st.embeddings ++ [(case_name, [])]⟩
      else st
    (true,
      ⟨updateKey st1.cases case_name
          (fun l => l ++ [⟨image_path, some v, description⟩]),
        updateKey st1.embeddings case_name (fun l => l ++ [v])⟩)

/-- `CaseLibrary.remove_case`: unknown name returns `False`; no index
deletes the whole category; a valid index pops that entry from both lists
and deletes the category when it becomes empty; an out-of-range index
returns `False` leaving the library unchanged. -/
def remove_case (st : CaseLibraryState) (case_name : String)
    (case_index : Option Nat) : Bool × CaseLibraryState :=
  match getVal st.cases case_name with
  | none => (false, st)
  | some lst =>
    match case_index with
    | none =>
      (true, ⟨delKey st.cases case_name, delKey st.embeddings case_name⟩)
    | some i =>
      if i < lst.length then
        let newLst := lst.eraseIdx i
        let cases1 := updateKey st.cases case_name (fun l => l.eraseIdx i)
        let embs1 :=
          updateKey st.embeddings case_name (fun l => l.eraseIdx i)
        if newLst.length = 0 then
          (true, ⟨delKey cases1 case_name, delKey embs1 case_name⟩)
        else (true, ⟨cases1, embs1⟩)
      else (false, st)

/-- `CaseLibrary.get_case_count`: `len(self.cases.get(case_name, []))`. -/
def get_case_count (cases : List (String × List CaseInfo))
    (case_name : String) : Nat :=
  ((getVal cases case_name).getD []).length

/-! ### Persistence (image_case_classifier.py:143-186) -/

/-- One label's value in the persisted JSON document: either the legacy
single-object shape or the current list shape. -/
inductive CaseData where
  | single : CaseInfo → CaseData
  | multi : List CaseInfo → CaseData
  deriving Repr, DecidableEq

/-- `CaseLibrary.save_library`: the document written is exactly
`self.cases` (each label's entry list serialised as a JSON list). -/
def save_library (cases : List (String × List CaseInfo)) :
    List (String × CaseData) :=
  cases.map (fun kv => (kv.1, CaseData.multi kv.2))

/-- One iteration of the `_load_library` compatibility loop: a dict-shaped
value carrying an `embedding` field loads as a one-entry category; a
list-shaped value is stored as-is in `cases` while `embeddings` keeps only
the items carrying an `embedding` field; anything else is ignored. -/
def loadItem (st : CaseLibraryState) (kv : String × CaseData) :
    CaseLibraryState :=
  match kv.2 with
  | CaseData.single info =>
    match info.embedding with
    | some v =>
      ⟨setKey st.cases kv.1 [info], setKey st.embeddings kv.1 [v]⟩
    | none => st
  | CaseData.multi lst =>
    ⟨setKey st.cases kv.1 lst,
      setKey st.embeddings kv.1 (lst.filterMap (fun i => i.embedding))⟩

/-- `CaseLibrary._load_library` over an existing parsed document, starting
from the freshly-initialised empty state. -/
def load_library (doc : List (String × CaseData)) : CaseLibraryState :=
  doc.foldl loadItem ⟨[], []⟩

/-! ### `CaseBasedClassifier` (image_case_classifier.py:188-281) -/

/-- `CaseBasedClassifier.classify_image` applied to an already-embedded
query vector: per category, fold the similarities of all its sample
vectors with `max` starting from `-1.0`, then stable-sort the
`(name, score)` pairs by descending score and keep the first `top_k`. -/
def classify_image (sim : Vec → Vec → ℚ)
    (libEmbeddings : List (String × List Vec)) (query : Vec)
    (top_k : Nat) : List (String × ℚ) :=
  let category_similarities := libEmbeddings.map
    (fun kv => (kv.1, kv.2.foldl (fun m e => max m (sim query e)) (-1)))
  (category_similarities.mergeSort
    (fun a b => decide (b.2 ≤ a.2))).take top_k

/-- The batch loop of `classify_images`: a path that fails to embed, or
whose best score misses the threshold, joins `unclassified`; otherwise the
path is appended under its best category. -/
def classifyLoop (sim : Vec → Vec → ℚ) (encode : String → Option Vec)
    (libEmbeddings : List (String × List Vec)) (threshold : ℚ) :
    List String → List (String × List String) → List String →
      List (String × List String) × List String
  | [], results, unclassified => (results, unclassified)
  | p :: ps, results, unclassified =>
    match
      (match encode p with
       | none => []
       | some q => classify_image sim libEmbeddings q 1) with
    | [] =>
      classifyLoop sim encode libEmbeddings threshold ps results
        (unclassified ++ [p])
    | (case_name, similarity) :: _ =>
      if threshold ≤ similarity then
        classifyLoop sim encode libEmbeddings threshold ps
          (pushVal results case_name p) unclassified
      else
        classifyLoop sim encode libEmbeddings threshold ps results
          (unclassified ++ [p])

/-- The label of the synthetic bucket collecting unclassified images. -/
def unclassifiedLabel : String := "未分类"

/-- `CaseBasedClassifier.classify_images`: run the batch loop with empty
accumulators; when any item is unclassified, store the collected list
under the synthetic label. -/
def classify_images (sim : Vec → Vec → ℚ) (encode : String → Option Vec)
    (libEmbeddings : List (String × List Vec)) (image_paths : List String)
    (threshold : ℚ := 0) : List (String × List String) :=
  let run := classifyLoop sim encode libEmbeddings threshold image_paths [] []
  if run.2 = [] then run.1
  else setKey run.1 unclassifiedLabel run.2

/-- A concrete similarity metric for witnesses and counterexamples: the
dot product of two rational vectors (what `compute_similarity` computes
with `method="cosine"` on pre-normalised vectors). -/
def dotQ (a b : Vec) : ℚ := (List.zipWith (· * ·) a b).sum

/-- The per-cluster guarantee of the greedy method: the cluster's first
member is the item at some seed index `i`, and every later member is a
later item whose similarity to the seed reaches the threshold. -/
def SeedSound (sim : Vec → Vec → ℚ) (embeddings : List Vec)
    (image_paths : List String) (tau : ℚ) (c : Nat × List String) :
    Prop :=
  ∃ i, i < embeddings.length ∧
    c.2.head? = some (image_paths.getD i "") ∧
    ∀ m ∈ c.2.tail, ∃ j, i < j ∧ j < embeddings.length ∧
      tau ≤ sim (embeddings.getD i []) (embeddings.getD j []) ∧
      m = image_paths.getD j ""

/-- Placeholder case record used only as the `getD` default when stating
positional properties. -/
def dfltInfo : CaseInfo := ⟨"", none, ""⟩

/-- The representation invariant of the in-memory `CaseLibrary`: both
dicts have duplicate-free keys, they hold exactly the same labels, per
label the cached vector list aligns position by position with the vectors
stored in the case records, and no label maps to an empty entry list. -/
def LibraryInvariant (st : CaseLibraryState) : Prop :=
  (st.cases.map Prod.fst).Nodup
  ∧ (st.embeddings.map Prod.fst).Nodup
  ∧ (∀ k, (getVal st.cases k).isSome ↔ (getVal st.embeddings k).isSome)
  ∧ (∀ k lst elst, getVal st.cases k = some lst →
      getVal st.embeddings k = some elst →
      elst.length = lst.length ∧
      ∀ i, i < lst.length →
        (lst.getD i dfltInfo).embedding = some (elst.getD i []))
  ∧ (∀ kv ∈ st.cases, (kv : String × List CaseInfo).2 ≠ [])

/-! ### Association-list lemmas -/

theorem getVal_eq_none {m : List (String × α)} {k : String} :
    getVal m k = none ↔ k ∉ m.map Prod.fst := by
  induction m with
  | nil => simp [getVal]
  | cons kv rest ih =>
    obtain ⟨k', v⟩ := kv
    by_cases h : k' = k
    · subst h; simp [getVal]
    · simp [getVal, h, ih, Ne.symm h]

theorem getVal_append_of_none {m m' : List (String × α)} {k : String}
    (h : getVal m k = none) : getVal (m ++ m') k = getVal m' k := by
  induction m with
  | nil => rfl
  | cons kv rest ih =>
    obtain ⟨k', v⟩ := kv
    by_cases hk : k' = k
    · simp [getVal, hk] at h
    · simp only [getVal, hk, if_neg] at h ⊢
      simp [List.cons_append, getVal, hk, ih h]

theorem delKey_sublist (m : List (String × α)) (k : String) :
    (delKey m k).Sublist m := by
  induction m with
  | nil => simp [delKey]
  | cons kv rest ih =>
    obtain ⟨k', v⟩ := kv
    by_cases h : k' = k
    · simpa [delKey, h] using (List.sublist_cons_self (k', v) rest)
    · simpa [delKey, h] using ih.cons₂ (k', v)

theorem getVal_delKey_ne {m : List (String × α)} {k k' : String}
    (h : k' ≠ k) : getVal (delKey m k) k' = getVal m k' := by
  induction m with
  | nil => rfl
  | cons kv rest ih =>
    obtain ⟨k₀, v⟩ := kv
    by_cases hk : k₀ = k
    · subst hk; simp [delKey, getVal, Ne.symm h]
    · by_cases hk' : k₀ = k' <;> simp [delKey, getVal, hk, hk', h, ih]

theorem getVal_delKey_self {m : List (String × α)} {k : String}
    (h : (m.map Prod.fst).Nodup) : getVal (delKey m k) k = none := by
  induction m with
  | nil => rfl
  | cons kv rest ih =>
    obtain ⟨k₀, v⟩ := kv
    simp only [List.map_cons, List.nodup_cons] at h
    by_cases hk : k₀ = k
    · subst hk
      simpa [delKey, getVal_eq_none] using h.1
    · simp [delKey, getVal, hk, ih h.2]

theorem map_fst_updateKey (m : List (String × α)) (k : String)
    (f : α → α) : (updateKey m k f).map Prod.fst = m.map Prod.fst := by
  induction m with
  | nil => rfl
  | cons kv rest ih =>
    obtain ⟨k₀, v⟩ := kv
    by_cases hk : k₀ = k <;> simp [updateKey, hk, ih]

theorem getVal_updateKey_self (m : List (String × α)) (k : String)
    (f : α → α) : getVal (updateKey m k f) k = (getVal m k).map f := by
  induction m with
  | nil => rfl
  | cons kv rest ih =>
    obtain ⟨k₀, v⟩ := kv
    by_cases hk : k₀ = k <;> simp [updateKey, getVal, hk, ih]

theorem getVal_updateKey_ne {m : List (String × α)} {k k' : String}
    (f : α → α) (h : k' ≠ k) :
    getVal (updateKey m k f) k' = getVal m k' := by
  induction m with
  | nil => rfl
  | cons kv rest ih =>
    obtain ⟨k₀, v⟩ := kv
    by_cases hk : k₀ = k
    · subst hk; simp [updateKey, getVal, Ne.symm h]
    · by_cases hk' : k₀ = k' <;> simp [updateKey, getVal, hk, hk', h, ih]

theorem mem_updateKey {m : List (String × α)} {k : String} {f : α → α}
    {kv : String × α} (h : kv ∈ updateKey m k f) :
    kv ∈ m ∨ ∃ v, (k, v) ∈ m ∧ kv = (k, f v) := by
  induction m with
  | nil => simp [updateKey] at h
  | cons kv₀ rest ih =>
    obtain ⟨k₀, v₀⟩ := kv₀
    by_cases hk : k₀ = k
    · subst hk
      rw [updateKey, if_pos rfl, List.mem_cons] at h
      rcases h with h | h
      · exact Or.inr ⟨v₀, List.mem_cons_self _ _, h⟩
      · exact Or.inl (List.mem_cons_of_mem _ h)
    · rw [updateKey, if_neg hk, List.mem_cons] at h
      rcases h with h | h
      · exact Or.inl (h ▸ List.mem_cons_self _ _)
      · rcases ih h with h' | ⟨v, hv, he⟩
        · exact Or.inl (List.mem_cons_of_mem _ h')
        · exact Or.inr ⟨v, List.mem_cons_of_mem _ hv, he⟩

theorem getVal_setKey_self (m : List (String × α)) (k : String) (v : α) :
    getVal (setKey m k v) k = some v := by
  induction m with
  | nil => simp [setKey, getVal]
  | cons kv rest ih =>
    obtain ⟨k₀, v₀⟩ := kv
    by_cases hk : k₀ = k <;> simp [setKey, getVal, hk, ih]

theorem getVal_setKey_ne {m : List (String × α)} {k k' : String} (v : α)
    (h : k' ≠ k) : getVal (setKey m k v) k' = getVal m k' := by
  induction m with
  | nil => simp [setKey, getVal, Ne.symm h]
  | cons kv rest ih =>
    obtain ⟨k₀, v₀⟩ := kv
    by_cases hk : k₀ = k
    · subst hk; simp [setKey, getVal, Ne.symm h]
    · by_cases hk' : k₀ = k' <;> simp [setKey, getVal, hk, hk', h, ih]

theorem getVal_pushVal_self (m : List (String × List α)) (k : String)
    (x : α) :
    getVal (pushVal m k x) k = some (((getVal m k).getD []) ++ [x]) := by
  induction m with
  | nil => simp [pushVal, getVal]
  | cons kv rest ih =>
    obtain ⟨k₀, xs⟩ := kv
    by_cases hk : k₀ = k <;> simp [pushVal, getVal, hk, ih]

theorem getVal_pushVal_ne {m : List (String × List α)} {k k' : String}
    (x : α) (h : k' ≠ k) : getVal (pushVal m k x) k' = getVal m k' := by
  induction m with
  | nil => simp [pushVal, getVal, Ne.symm h]
  | cons kv rest ih =>
    obtain ⟨k₀, xs⟩ := kv
    by_cases hk : k₀ = k
    · subst hk; simp [pushVal, getVal, Ne.symm h]
    · by_cases hk' : k₀ = k' <;> simp [pushVal, getVal, hk, hk', h, ih]

/-! ### List index lemmas -/

theorem getD_set_mono {l : List Bool} {i : Nat} (j : Nat)
    (h : l.getD i false = true) : (l.set j true).getD i false = true := by
  induction l generalizing i j with
  | nil => simp [List.getD] at h
  | cons a l ih =>
    cases j with
    | zero =>
      cases i with
      | zero => simp [List.set]
      | succ i => simpa [List.set, List.getD] using h
    | succ j =>
      cases i with
      | zero => simpa [List.set, List.getD] using h
      | succ i =>
        simp only [List.set, List.getD_cons_succ] at h ⊢
        exact ih j h

theorem getD_set_cases {l : List Bool} {i j : Nat}
    (h : (l.set j true).getD i false = true) :
    l.getD i false = true ∨ i = j := by
  induction l generalizing i j with
  | nil => simp [List.set, List.getD] at h
  | cons a l ih =>
    cases j with
    | zero =>
      cases i with
      | zero => exact Or.inr rfl
      | succ i =>
        left
        simpa [List.set, List.getD_cons_succ] using h
    | succ j =>
      cases i with
      | zero =>
        left
        simpa [List.set, List.getD] using h
      | succ i =>
        simp only [List.set, List.getD_cons_succ] at h
        rcases ih h with h' | h'
        · exact Or.inl h'
        · exact Or.inr (by omega)

theorem getD_set_self {l : List Bool} {j : Nat} (h : j < l.length) :
    (l.set j true).getD j false = true := by
  induction l generalizing j with
  | nil => simp at h
  | cons a l ih =>
    cases j with
    | zero => simp [List.set]
    | succ j =>
      simp only [List.length_cons, Nat.succ_lt_succ_iff] at h
      simpa [List.set, List.getD_cons_succ] using ih h

theorem getD_replicate_false {n i : Nat} :
    (List.replicate n false).getD i false = false := by
  induction n generalizing i with
  | zero => simp [List.getD]
  | succ n ih =>
    cases i with
    | zero => simp [List.replicate]
    | succ i => simpa [List.replicate, List.getD_cons_succ] using ih

theorem getD_eraseIdx (l : List α) (i j : Nat) (d : α) :
    (l.eraseIdx i).getD j d =
      if j < i then l.getD j d else l.getD (j + 1) d := by
  induction l generalizing i j with
  | nil => simp [List.eraseIdx, List.getD]
  | cons a l ih =>
    cases i with
    | zero => simp [List.eraseIdx, List.getD_cons_succ]
    | succ i =>
      cases j with
      | zero => simp [List.eraseIdx]
      | succ j =>
        simpa [List.eraseIdx, List.getD_cons_succ,
          Nat.succ_lt_succ_iff] using ih i j

/-! ### Unfolding lemmas for the greedy clustering loops -/

theorem clusterScan_cons_assigned {sim : Vec → Vec → ℚ}
    {embeddings : List Vec} {image_paths : List String} {tau : ℚ}
    {vi : Vec} {j : Nat} {js : List Nat} {members : List String}
    {assigned : List Bool} (h : assigned.getD j false = true) :
    clusterScan sim embeddings image_paths tau vi (j :: js) members
        assigned =
      clusterScan sim embeddings image_paths tau vi js members assigned :=
  by rw [List.getD_eq_getElem?_getD] at h; simp [clusterScan, h]

theorem clusterScan_cons_hit {sim : Vec → Vec → ℚ}
    {embeddings : List Vec} {image_paths : List String} {tau : ℚ}
    {vi : Vec} {j : Nat} {js : List Nat} {members : List String}
    {assigned : List Bool} (h1 : assigned.getD j false = false)
    (h2 : tau ≤ sim vi (embeddings.getD j [])) :
    clusterScan sim embeddings image_paths tau vi (j :: js) members
        assigned =
      clusterScan sim embeddings image_paths tau vi js
        (members ++ [image_paths.getD j ""]) (assigned.set j true) := by
  rw [List.getD_eq_getElem?_getD] at h1
  rw [List.getD_eq_getElem?_getD] at h2
  simp [clusterScan, h1, h2]

theorem clusterScan_cons_miss {sim : Vec → Vec → ℚ}
    {embeddings : List Vec} {image_paths : List String} {tau : ℚ}
    {vi : Vec} {j : Nat} {js : List Nat} {members : List String}
    {assigned : List Bool} (h1 : assigned.getD j false = false)
    (h2 : ¬ tau ≤ sim vi (embeddings.getD j [])) :
    clusterScan sim embeddings image_paths tau vi (j :: js) members
        assigned =
      clusterScan sim embeddings image_paths tau vi js members assigned := by
  rw [List.getD_eq_getElem?_getD] at h1
  rw [List.getD_eq_getElem?_getD] at h2
  simp [clusterScan, h1, h2]

theorem clusterLoop_cons_assigned {sim : Vec → Vec → ℚ}
    {embeddings : List Vec} {image_paths : List String} {tau : ℚ}
    {i : Nat} {is : List Nat} {cluster_id : Nat}
    {clusters : List (Nat × List String)} {assigned : List Bool}
    (h : assigned.getD i false = true) :
    clusterLoop sim embeddings image_paths tau (i :: is) cluster_id
        clusters assigned =
      clusterLoop sim embeddings image_paths tau is cluster_id clusters
        assigned :=
  by rw [List.getD_eq_getElem?_getD] at h; simp [clusterLoop, h]

theorem clusterLoop_cons_new {sim : Vec → Vec → ℚ}
    {embeddings : List Vec} {image_paths : List String} {tau : ℚ}
    {i : Nat} {is : List Nat} {cluster_id : Nat}
    {clusters : List (Nat × List String)} {assigned : List Bool}
    (h : assigned.getD i false = false) :
    clusterLoop sim embeddings image_paths tau (i :: is) cluster_id
        clusters assigned =
      clusterLoop sim embeddings image_paths tau is (cluster_id + 1)
        (clusters ++
          [(cluster_id,
            (clusterScan sim embeddings image_paths tau
              (embeddings.getD i [])
              (List.range' (i + 1) (embeddings.length - (i + 1)))
              [image_paths.getD i ""] (assigned.set i true)).1)])
        (clusterScan sim embeddings image_paths tau (embeddings.getD i [])
          (List.range' (i + 1) (embeddings.length - (i + 1)))
          [image_paths.getD i ""] (assigned.set i true)).2 :=
  by rw [List.getD_eq_getElem?_getD] at h; simp [clusterLoop, h]

/-! ### Invariants of the greedy clustering loops -/

theorem clusterScan_members_spec (sim : Vec → Vec → ℚ)
    (embeddings : List Vec) (image_paths : List String) (tau : ℚ)
    (vi : Vec) (js : List Nat) :
    ∀ (members : List String) (assigned : List Bool),
      ∃ suffix,
        (clusterScan sim embeddings image_paths tau vi js members
            assigned).1 = members ++ suffix ∧
        ∀ m ∈ suffix, ∃ j ∈ js,
          tau ≤ sim vi (embeddings.getD j []) ∧
          m = image_paths.getD j "" := by
  induction js with
  | nil =>
    intro members assigned
    exact ⟨[], by simp [clusterScan], by simp⟩
  | cons j js ih =>
    intro members assigned
    by_cases h1 : assigned.getD j false = true
    · obtain ⟨suffix, hs, hm⟩ := ih members assigned
      refine ⟨suffix, ?_, ?_⟩
      · rw [clusterScan_cons_assigned h1]; exact hs
      · intro m hm'
        obtain ⟨j', hj', hsim, he⟩ := hm m hm'
        exact ⟨j', List.mem_cons_of_mem _ hj', hsim, he⟩
    · rw [Bool.not_eq_true] at h1
      by_cases h2 : tau ≤ sim vi (embeddings.getD j [])
      · obtain ⟨suffix, hs, hm⟩ :=
          ih (members ++ [image_paths.getD j ""]) (assigned.set j true)
        refine ⟨image_paths.getD j "" :: suffix, ?_, ?_⟩
        · rw [clusterScan_cons_hit h1 h2, hs, List.append_assoc]
          rfl
        · intro m hm'
          rcases List.mem_cons.mp hm' with rfl | hm'
          · exact ⟨j, List.mem_cons_self _ _, h2, rfl⟩
          · obtain ⟨j', hj', hsim, he⟩ := hm m hm'
            exact ⟨j', List.mem_cons_of_mem _ hj', hsim, he⟩
      · obtain ⟨suffix, hs, hm⟩ := ih members assigned
        refine ⟨suffix, ?_, ?_⟩
        · rw [clusterScan_cons_miss h1 h2]; exact hs
        · intro m hm'
          obtain ⟨j', hj', hsim, he⟩ := hm m hm'
          exact ⟨j', List.mem_cons_of_mem _ hj', hsim, he⟩

theorem mem_clusterScan_members {sim : Vec → Vec → ℚ}
    {embeddings : List Vec} {image_paths : List String} {tau : ℚ}
    {vi : Vec} {js : List Nat} {members : List String}
    {assigned : List Bool} {x : String} (h : x ∈ members) :
    x ∈ (clusterScan sim embeddings image_paths tau vi js members
      assigned).1 := by
  obtain ⟨suffix, hs, _⟩ :=
    clusterScan_members_spec sim embeddings image_paths tau vi js members
      assigned
  rw [hs]
  exact List.mem_append_left _ h

theorem clusterScan_assigned_spec (sim : Vec → Vec → ℚ)
    (embeddings : List Vec) (image_paths : List String) (tau : ℚ)
    (vi : Vec) (js : List Nat) :
    ∀ (members : List String) (assigned : List Bool) (j : Nat),
      ((clusterScan sim embeddings image_paths tau vi js members
          assigned).2).getD j false = true →
      assigned.getD j false = true ∨
        image_paths.getD j "" ∈
          (clusterScan sim embeddings image_paths tau vi js members
            assigned).1 := by
  induction js with
  | nil =>
    intro members assigned j h
    exact Or.inl (by simpa [clusterScan] using h)
  | cons j₀ js ih =>
    intro members assigned j h
    by_cases h1 : assigned.getD j₀ false = true
    · rw [clusterScan_cons_assigned h1] at h ⊢
      exact ih members assigned j h
    · rw [Bool.not_eq_true] at h1
      by_cases h2 : tau ≤ sim vi (embeddings.getD j₀ [])
      · rw [clusterScan_cons_hit h1 h2] at h ⊢
        rcases ih _ _ j h with h' | h'
        · rcases getD_set_cases h' with h'' | rfl
          · exact Or.inl h''
          · exact Or.inr (mem_clusterScan_members
              (List.mem_append_right _ (List.mem_singleton.mpr rfl)))
        · exact Or.inr h'
      · rw [clusterScan_cons_miss h1 h2] at h ⊢
        exact ih members assigned j h

theorem clusterLoop_append_spec (sim : Vec → Vec → ℚ)
    (embeddings : List Vec) (image_paths : List String) (tau : ℚ)
    (is : List Nat) :
    ∀ (cluster_id : Nat) (clusters : List (Nat × List String))
      (assigned : List Bool),
      ∃ tail,
        clusterLoop sim embeddings image_paths tau is cluster_id clusters
          assigned = clusters ++ tail := by
  induction is with
  | nil =>
    intro cluster_id clusters assigned
    exact ⟨[], by simp [clusterLoop]⟩
  | cons i is ih =>
    intro cluster_id clusters assigned
    by_cases h : assigned.getD i false = true
    · rw [clusterLoop_cons_assigned h]
      exact ih cluster_id clusters assigned
    · rw [Bool.not_eq_true] at h
      rw [clusterLoop_cons_new h]
      obtain ⟨tail, ht⟩ := ih (cluster_id + 1)
        (clusters ++
          [(cluster_id,
            (clusterScan sim embeddings image_paths tau
              (embeddings.getD i [])
              (List.range' (i + 1) (embeddings.length - (i + 1)))
              [image_paths.getD i ""] (assigned.set i true)).1)])
        (clusterScan sim embeddings image_paths tau (embeddings.getD i [])
          (List.range' (i + 1) (embeddings.length - (i + 1)))
          [image_paths.getD i ""] (assigned.set i true)).2
      refine ⟨[(cluster_id,
          (clusterScan sim embeddings image_paths tau (embeddings.getD i [])
            (List.range' (i + 1) (embeddings.length - (i + 1)))
            [image_paths.getD i ""] (assigned.set i true)).1)] ++ tail, ?_⟩
      rw [ht, List.append_assoc]

theorem clusterLoop_ids_spec (sim : Vec → Vec → ℚ)
    (embeddings : List Vec) (image_paths : List String) (tau : ℚ)
    (is : List Nat) :
    ∀ (cluster_id : Nat) (clusters : List (Nat × List String))
      (assigned : List Bool),
      ∃ len,
        (clusterLoop sim embeddings image_paths tau is cluster_id clusters
            assigned).map Prod.fst =
          clusters.map Prod.fst ++ List.range' cluster_id len := by
  induction is with
  | nil =>
    intro cluster_id clusters assigned
    exact ⟨0, by simp [clusterLoop, List.range']⟩
  | cons i is ih =>
    intro cluster_id clusters assigned
    by_cases h : assigned.getD i false = true
    · rw [clusterLoop_cons_assigned h]
      exact ih cluster_id clusters assigned
    · rw [Bool.not_eq_true] at h
      rw [clusterLoop_cons_new h]
      obtain ⟨len, hl⟩ := ih (cluster_id + 1) (clusters ++ _) _
      refine ⟨len + 1, ?_⟩
      rw [hl, List.map_append, List.range'_succ, List.append_assoc]
      rfl

theorem clusterLoop_good_spec (sim : Vec → Vec → ℚ)
    (embeddings : List Vec) (image_paths : List String) (tau : ℚ)
    (is : List Nat) :
    ∀ (cluster_id : Nat) (clusters : List (Nat × List String))
      (assigned : List Bool),
      (∀ c ∈ clusters, SeedSound sim embeddings image_paths tau c) →
      (∀ i ∈ is, i < embeddings.length) →
      ∀ c ∈ clusterLoop sim embeddings image_paths tau is cluster_id
          clusters assigned,
        SeedSound sim embeddings image_paths tau c := by
  induction is with
  | nil =>
    intro cluster_id clusters assigned hc _ c hm
    exact hc c (by simpa [clusterLoop] using hm)
  | cons i is ih =>
    intro cluster_id clusters assigned hc hbound c hm
    have hi : i < embeddings.length := hbound i (List.mem_cons_self _ _)
    by_cases h : assigned.getD i false = true
    · rw [clusterLoop_cons_assigned h] at hm
      exact ih cluster_id clusters assigned hc
        (fun i' hi' => hbound i' (List.mem_cons_of_mem _ hi')) c hm
    · rw [Bool.not_eq_true] at h
      rw [clusterLoop_cons_new h] at hm
      refine ih (cluster_id + 1) _ _ ?_
        (fun i' hi' => hbound i' (List.mem_cons_of_mem _ hi')) c hm
      intro c' hc'
      rcases List.mem_append.mp hc' with h' | h'
      · exact hc c' h'
      · have hceq : c' = (cluster_id,
            (clusterScan sim embeddings image_paths tau
              (embeddings.getD i [])
              (List.range' (i + 1) (embeddings.length - (i + 1)))
              [image_paths.getD i ""] (assigned.set i true)).1) := by
          simpa using h'
        subst hceq
        obtain ⟨suffix, hs, hmem⟩ :=
          clusterScan_members_spec sim embeddings image_paths tau
            (embeddings.getD i [])
            (List.range' (i + 1) (embeddings.length - (i + 1)))
            [image_paths.getD i ""] (assigned.set i true)
        refine ⟨i, hi, ?_, ?_⟩
        · rw [hs]
          rfl
        · intro m hm'
          rw [hs] at hm'
          simp only [List.singleton_append, List.tail_cons] at hm'
          obtain ⟨j, hj, hsim, he⟩ := hmem m hm'
          obtain ⟨hj1, hj2⟩ := List.mem_range'_1.mp hj
          exact ⟨j, by omega, by omega, hsim, he⟩

theorem clusterLoop_covers (sim : Vec → Vec → ℚ) (embeddings : List Vec)
    (image_paths : List String) (tau : ℚ) (is : List Nat) :
    ∀ (cluster_id : Nat) (clusters : List (Nat × List String))
      (assigned : List Bool),
      (∀ j, assigned.getD j false = true →
        ∃ c ∈ clusters, image_paths.getD j "" ∈ c.2) →
      ∀ j ∈ is,
        ∃ c ∈ clusterLoop sim embeddings image_paths tau is cluster_id
            clusters assigned,
          image_paths.getD j "" ∈ c.2 := by
  induction is with
  | nil => simp
  | cons i is ih =>
    intro cluster_id clusters assigned hinv j hj
    by_cases h : assigned.getD i false = true
    · rw [clusterLoop_cons_assigned h]
      rcases List.mem_cons.mp hj with rfl | hj'
      · obtain ⟨c, hc, hcm⟩ := hinv j h
        obtain ⟨tail, ht⟩ := clusterLoop_append_spec sim embeddings
          image_paths tau is cluster_id clusters assigned
        exact ⟨c, by rw [ht]; exact List.mem_append_left _ hc, hcm⟩
      · exact ih cluster_id clusters assigned hinv j hj'
    · rw [Bool.not_eq_true] at h
      rw [clusterLoop_cons_new h]
      obtain ⟨suffix, hs, hmem⟩ :=
        clusterScan_members_spec sim embeddings image_paths tau
          (embeddings.getD i [])
          (List.range' (i + 1) (embeddings.length - (i + 1)))
          [image_paths.getD i ""] (assigned.set i true)
      have hinv' : ∀ j',
          ((clusterScan sim embeddings image_paths tau
            (embeddings.getD i [])
            (List.range' (i + 1) (embeddings.length - (i + 1)))
            [image_paths.getD i ""] (assigned.set i true)).2).getD j' false
              = true →
          ∃ c ∈ clusters ++
            [(cluster_id,
              (clusterScan sim embeddings image_paths tau
                (embeddings.getD i [])
                (List.range' (i + 1) (embeddings.length - (i + 1)))
                [image_paths.getD i ""] (assigned.set i true)).1)],
            image_paths.getD j' "" ∈ c.2 := by
        intro j' hj'
        rcases clusterScan_assigned_spec sim embeddings image_paths tau
          (embeddings.getD i [])
          (List.range' (i + 1) (embeddings.length - (i + 1)))
          [image_paths.getD i ""] (assigned.set i true) j' hj'
          with h' | h'
        · rcases getD_set_cases h' with h'' | rfl
          · obtain ⟨c, hc, hcm⟩ := hinv j' h''
            exact ⟨c, List.mem_append_left _ hc, hcm⟩
          · refine ⟨_, List.mem_append_right _ (List.mem_singleton.mpr rfl),
              ?_⟩
            rw [hs]
            exact List.mem_append_left _ (List.mem_singleton.mpr rfl)
        · exact ⟨_, List.mem_append_right _ (List.mem_singleton.mpr rfl),
            h'⟩
      rcases List.mem_cons.mp hj with rfl | hj'
      · obtain ⟨tail, ht⟩ := clusterLoop_append_spec sim embeddings
          image_paths tau is (cluster_id + 1)
          (clusters ++
            [(cluster_id,
              (clusterScan sim embeddings image_paths tau
                (embeddings.getD j [])
                (List.range' (j + 1) (embeddings.length - (j + 1)))
                [image_paths.getD j ""] (assigned.set j true)).1)])
          (clusterScan sim embeddings image_paths tau
            (embeddings.getD j [])
            (List.range' (j + 1) (embeddings.length - (j + 1)))
            [image_paths.getD j ""] (assigned.set j true)).2
        refine ⟨(cluster_id,
          (clusterScan sim embeddings image_paths tau
            (embeddings.getD j [])
            (List.range' (j + 1) (embeddings.length - (j + 1)))
            [image_paths.getD j ""] (assigned.set j true)).1), ?_, ?_⟩
        · rw [ht]
          exact List.mem_append_left _
            (List.mem_append_right _ (List.mem_singleton.mpr rfl))
        · rw [hs]
          exact List.mem_append_left _ (List.mem_singleton.mpr rfl)
      · exact ih (cluster_id + 1) _ _ hinv' j hj'

/-- C1: `cluster_by_similarity` scans items in input order opening a new
cluster per unassigned item; the output maps sequential 0-based cluster
ids (in creation order) to ordered member lists; every cluster's first
member is its seed and every later member is a later item with similarity
to the seed at or above the threshold; every item lands in some cluster;
and pairwise similarity at or above the threshold among members is not
guaranteed (concrete instance: seeds `[1,0]` with members `[1,1]` and
`[1,-1]` at threshold `1`, whose mutual dot product is below `1`). -/
theorem C1_cluster_by_similarity_spec (sim : Vec → Vec → ℚ)
    (embeddings : List Vec) (image_paths : List String) (tau : ℚ) :
    ((cluster_by_similarity sim embeddings image_paths tau).map Prod.fst
        = List.range
            (cluster_by_similarity sim embeddings image_paths tau).length)
    ∧ (∀ c ∈ cluster_by_similarity sim embeddings image_paths tau,
        SeedSound sim embeddings image_paths tau c)
    ∧ (∀ j, j < embeddings.length →
        ∃ c ∈ cluster_by_similarity sim embeddings image_paths tau,
          image_paths.getD j "" ∈ c.2)
    ∧ (cluster_by_similarity dotQ [[1,0],[1,1],[1,-1]] ["S","X","Y"] 1
          = [(0, ["S","X","Y"])]
        ∧ dotQ [1,1] [1,-1] < 1) := by
  refine ⟨?_, ?_, ?_, ?_, ?_⟩
  · obtain ⟨len, hl⟩ := clusterLoop_ids_spec sim embeddings image_paths
      tau (List.range embeddings.length) 0 []
      (List.replicate embeddings.length false)
    have hout : (cluster_by_similarity sim embeddings image_paths
        tau).map Prod.fst = List.range' 0 len := by
      rw [cluster_by_similarity]
      simpa using hl
    have hlen : (cluster_by_similarity sim embeddings image_paths
        tau).length = len := by
      have hc := congrArg List.length hout
      simpa [List.length_range'] using hc
    rw [hout, hlen, List.range_eq_range']
  · intro c hc
    exact clusterLoop_good_spec sim embeddings image_paths tau
      (List.range embeddings.length) 0 []
      (List.replicate embeddings.length false) (by simp)
      (fun i hi => List.mem_range.mp hi) c hc
  · intro j hj
    exact clusterLoop_covers sim embeddings image_paths tau
      (List.range embeddings.length) 0 []
      (List.replicate embeddings.length false)
      (fun j' hj' => absurd hj' (by simp [getD_replicate_false]))
      j (List.mem_range.mpr hj)
  · norm_num [cluster_by_similarity, clusterLoop, clusterScan, dotQ,
      List.range_succ, List.range']
  · norm_num [dotQ]

/-! ### Empty-batch behaviour and k-means configuration -/

theorem embedBatch_all_failed {encode : String → Option Vec} :
    ∀ {image_paths : List String},
      (∀ p ∈ image_paths, encode p = none) →
      embedBatch encode image_paths = ([], []) := by
  intro ps
  induction ps with
  | nil => intro _; rfl
  | cons p ps ih =>
    intro h
    have hp := h p (List.mem_cons_self _ _)
    have hr := ih (fun q hq => h q (List.mem_cons_of_mem _ hq))
    simp [embedBatch, hp, hr]

/-- C7: on a batch with no successfully-embedded item (the empty batch
included), both the similarity-threshold method and the k-means method
return the empty cluster mapping. -/
theorem C7_empty_batch_empty_result (sim : Vec → Vec → ℚ)
    (encode : String → Option Vec)
    (kmeansFit : KMeansConfig → List Vec → List Nat)
    (image_paths : List String) (tau : ℚ) (n_clusters : Option Nat)
    (h : ∀ p ∈ image_paths, encode p = none) :
    cluster_images sim encode image_paths tau = []
    ∧ cluster_by_kmeans kmeansFit encode image_paths n_clusters = [] := by
  have hb := embedBatch_all_failed h
  constructor
  · simp [cluster_images, hb]
  · simp [cluster_by_kmeans, hb]

theorem C7_empty_batch_empty_result_witness :
    (∀ p ∈ ["a", "b"], (fun (_ : String) => (none : Option Vec)) p = none)
    ∧ cluster_images dotQ (fun _ => none) ["a", "b"] 1 = []
    ∧ cluster_by_kmeans (fun _ _ => []) (fun _ => none) ["a", "b"] none
        = [] := by
  refine ⟨fun p _ => rfl, ?_, ?_⟩
  · exact (C7_empty_batch_empty_result dotQ (fun _ => none)
      (fun _ _ => []) ["a", "b"] 1 none (fun p _ => rfl)).1
  · exact (C7_empty_batch_empty_result dotQ (fun _ => none)
      (fun _ _ => []) ["a", "b"] 1 none (fun p _ => rfl)).2

/-- C8: with `n_clusters = None` and at least one successfully-embedded
item, the cluster count handed to the k-means routine is
`max 1 (min (count / 3) 10)` over the embedded count, the random seed is
the fixed `42`, the restart count is at least `10`, and the partitioning
is delegated to the external routine with exactly that configuration. -/
theorem C8_kmeans_auto_config
    (kmeansFit : KMeansConfig → List Vec → List Nat)
    (encode : String → Option Vec) (image_paths : List String)
    (h : 1 ≤ (embedBatch encode image_paths).1.length) :
    (kmeansConfig (embedBatch encode image_paths).1.length
        none).n_clusters
      = max 1 (min ((embedBatch encode image_paths).1.length / 3) 10)
    ∧ (kmeansConfig (embedBatch encode image_paths).1.length
        none).random_state = 42
    ∧ 10 ≤ (kmeansConfig (embedBatch encode image_paths).1.length
        none).n_init
    ∧ cluster_by_kmeans kmeansFit encode image_paths none =
        groupByLabel
          (kmeansFit
            (kmeansConfig (embedBatch encode image_paths).1.length none)
            (embedBatch encode image_paths).1)
          (embedBatch encode image_paths).2 [] := by
  refine ⟨rfl, rfl, le_refl _, ?_⟩
  rw [cluster_by_kmeans]
  simp only []
  rw [if_neg (by omega)]

theorem C8_kmeans_auto_config_witness :
    (1 ≤ (embedBatch (fun _ => some [1]) ["a", "b", "c", "d"]).1.length)
    ∧ cluster_by_kmeans (fun _ _ => [0, 1, 0, 1]) (fun _ => some [1])
          ["a", "b", "c", "d"] none =
        groupByLabel
          ((fun (_ : KMeansConfig) (_ : List Vec) => [0, 1, 0, 1])
            (kmeansConfig (embedBatch (fun _ => some [1])
              ["a", "b", "c", "d"]).1.length none)
            (embedBatch (fun _ => some [1]) ["a", "b", "c", "d"]).1)
          (embedBatch (fun _ => some [1]) ["a", "b", "c", "d"]).2 [] :=
  ⟨by simp [embedBatch],
    (C8_kmeans_auto_config (fun _ _ => [0, 1, 0, 1]) (fun _ => some [1])
      ["a", "b", "c", "d"] (by simp [embedBatch])).2.2.2⟩

/-! ### Persistence round-trip -/

theorem setKey_of_none {m : List (String × α)} {k : String}
    (v : α) (h : getVal m k = none) : setKey m k v = m ++ [(k, v)] := by
  induction m with
  | nil => rfl
  | cons kv rest ih =>
    obtain ⟨k₀, v₀⟩ := kv
    by_cases hk : k₀ = k
    · simp [getVal, hk] at h
    · simp only [getVal, if_neg hk] at h
      simp [setKey, hk, ih h]

theorem foldl_setKey_append (cs : List (String × α)) :
    ∀ acc : List (String × α),
      (∀ k ∈ cs.map Prod.fst, getVal acc k = none) →
      (cs.map Prod.fst).Nodup →
      cs.foldl (fun m kv => setKey m kv.1 kv.2) acc = acc ++ cs := by
  induction cs with
  | nil => intro acc _ _; simp
  | cons kv cs ih =>
    intro acc hdisj hnd
    obtain ⟨k, v⟩ := kv
    simp only [List.map_cons, List.nodup_cons] at hnd
    have hk : getVal acc k = none :=
      hdisj k (by simp)
    have hstep : setKey acc k v = acc ++ [(k, v)] := setKey_of_none v hk
    simp only [List.foldl_cons, hstep]
    rw [ih (acc ++ [(k, v)]) ?_ hnd.2]
    · rw [List.append_assoc]
      rfl
    · intro k' hk'
      have hne : k' ≠ k := fun e => hnd.1 (e ▸ hk')
      rw [getVal_append_of_none (hdisj k' (List.mem_cons_of_mem _ hk'))]
      simp [getVal, Ne.symm hne]

theorem load_save_cases (cs : List (String × List CaseInfo)) :
    ∀ st : CaseLibraryState,
      (List.foldl loadItem st (save_library cs)).cases =
        cs.foldl (fun m kv => setKey m kv.1 kv.2) st.cases := by
  induction cs with
  | nil => intro st; rfl
  | cons kv cs ih =>
    intro st
    obtain ⟨k, lst⟩ := kv
    simp only [save_library, List.map_cons, List.foldl_cons]
    exact ih _

/-- C5: saving a library and loading the document back yields a library
with the identical category labels in order and the identical entry count
for every label. -/
theorem C5_save_load_roundtrip (cs : List (String × List CaseInfo))
    (hnd : (cs.map Prod.fst).Nodup) :
    ((load_library (save_library cs)).cases).map Prod.fst = cs.map Prod.fst
    ∧ ∀ l, get_case_count (load_library (save_library cs)).cases l =
        get_case_count cs l := by
  have hcases : (load_library (save_library cs)).cases = cs := by
    rw [load_library, load_save_cases cs]
    simpa using foldl_setKey_append cs [] (fun k _ => rfl) hnd
  rw [hcases]
  exact ⟨rfl, fun l => rfl⟩

theorem C5_save_load_roundtrip_witness :
    ((([("a", [⟨"p", some [1], ""⟩]), ("b", [⟨"q", some [2], ""⟩,
        ⟨"r", some [3], ""⟩])] : List (String × List CaseInfo)).map
          Prod.fst).Nodup)
    ∧ ((load_library (save_library [("a", [⟨"p", some [1], ""⟩]),
          ("b", [⟨"q", some [2], ""⟩, ⟨"r", some [3], ""⟩])])).cases).map
            Prod.fst
        = [("a", [(⟨"p", some [1], ""⟩ : CaseInfo)]),
            ("b", [⟨"q", some [2], ""⟩, ⟨"r", some [3], ""⟩])].map
            Prod.fst := by
  refine ⟨by simp, ?_⟩
  exact (C5_save_load_roundtrip _ (by simp)).1

/-! ### Classification: max-over-entries scores and descending sort -/

theorem foldl_max_init_le (f : Vec → ℚ) (lst : List Vec) :
    ∀ a : ℚ, a ≤ lst.foldl (fun m e => max m (f e)) a := by
  induction lst with
  | nil => intro a; simp
  | cons e lst ih =>
    intro a
    exact le_trans (le_max_left _ _) (ih (max a (f e)))

theorem le_foldl_max (f : Vec → ℚ) (lst : List Vec) :
    ∀ (a : ℚ) (e : Vec), e ∈ lst →
      f e ≤ lst.foldl (fun m e => max m (f e)) a := by
  induction lst with
  | nil => simp
  | cons e₀ lst ih =>
    intro a e he
    rcases List.mem_cons.mp he with rfl | he'
    · exact le_trans (le_max_right a (f e)) (foldl_max_init_le f lst _)
    · exact ih (max a (f e₀)) e he'

theorem foldl_max_attained (f : Vec → ℚ) (lst : List Vec) :
    ∀ a : ℚ, lst.foldl (fun m e => max m (f e)) a = a ∨
      ∃ e ∈ lst, lst.foldl (fun m e => max m (f e)) a = f e := by
  induction lst with
  | nil => intro a; exact Or.inl rfl
  | cons e₀ lst ih =>
    intro a
    rcases ih (max a (f e₀)) with h | ⟨e, he, hfe⟩
    · rcases le_total a (f e₀) with hle | hle
      · refine Or.inr ⟨e₀, List.mem_cons_self _ _, ?_⟩
        rw [List.foldl_cons, h, max_eq_right hle]
      · left
        rw [List.foldl_cons, h, max_eq_left hle]
    · refine Or.inr ⟨e, List.mem_cons_of_mem _ he, ?_⟩
      rw [List.foldl_cons]
      exact hfe

/-- C2: the classifier scores every category as the maximum similarity of
the query to that category's sample vectors (each returned score bounds
all of the category's sample similarities and is attained by one of them
unless it is the `-1.0` sentinel), the returned pairs are sorted by
descending score, and when `top_k` covers the library every category
appears exactly once. -/
theorem C2_classify_image_spec (sim : Vec → Vec → ℚ)
    (libEmbeddings : List (String × List Vec)) (query : Vec)
    (top_k : Nat) :
    List.Pairwise (fun a b : String × ℚ => b.2 ≤ a.2)
        (classify_image sim libEmbeddings query top_k)
    ∧ (∀ p ∈ classify_image sim libEmbeddings query top_k,
        ∃ lst, (p.1, lst) ∈ libEmbeddings ∧
          (∀ e ∈ lst, sim query e ≤ p.2) ∧
          (p.2 = -1 ∨ ∃ e ∈ lst, p.2 = sim query e))
    ∧ (top_k = libEmbeddings.length →
        ((classify_image sim libEmbeddings query top_k).map
          Prod.fst).Perm (libEmbeddings.map Prod.fst)) := by
  have hperm := List.mergeSort_perm
    (libEmbeddings.map
      (fun kv => (kv.1, kv.2.foldl (fun m e => max m (sim query e)) (-1))))
    (fun a b : String × ℚ => decide (b.2 ≤ a.2))
  refine ⟨?_, ?_, ?_⟩
  · have hsorted := @List.sorted_mergeSort (String × ℚ)
      (fun a b => decide (b.2 ≤ a.2))
      (fun a b c hab hbc => by
        simp only [decide_eq_true_eq] at hab hbc ⊢
        exact le_trans hbc hab)
      (fun a b => by
        simp only [Bool.or_eq_true, decide_eq_true_eq]
        exact le_total b.2 a.2)
      (libEmbeddings.map
        (fun kv =>
          (kv.1, kv.2.foldl (fun m e => max m (sim query e)) (-1))))
    have hsorted' := hsorted.imp
      (fun {a b} h => of_decide_eq_true h)
    exact List.Pairwise.sublist (List.take_sublist _ _) hsorted'
  · intro p hp
    have hp1 : p ∈ (libEmbeddings.map
        (fun kv =>
          (kv.1, kv.2.foldl (fun m e => max m (sim query e)) (-1)))) :=
      hperm.mem_iff.mp ((List.take_sublist _ _).subset hp)
    obtain ⟨kv, hkv, hpe⟩ := List.mem_map.mp hp1
    refine ⟨kv.2, ?_, ?_, ?_⟩
    · rw [← hpe]
      exact hkv
    · intro e he
      rw [← hpe]
      exact le_foldl_max (fun e => sim query e) kv.2 (-1) e he
    · rcases foldl_max_attained (fun e => sim query e) kv.2 (-1)
        with h | ⟨e, he, hfe⟩
      · left
        rw [← hpe]
        exact h
      · right
        exact ⟨e, he, by rw [← hpe]; exact hfe⟩
  · intro hk
    have hlen : ((libEmbeddings.map
        (fun kv =>
          (kv.1, kv.2.foldl (fun m e => max m (sim query e))
            (-1)))).mergeSort
          (fun a b : String × ℚ => decide (b.2 ≤ a.2))).length
        = libEmbeddings.length := by
      rw [hperm.length_eq, List.length_map]
    have htake : classify_image sim libEmbeddings query top_k =
        (libEmbeddings.map
          (fun kv =>
            (kv.1, kv.2.foldl (fun m e => max m (sim query e))
              (-1)))).mergeSort
            (fun a b : String × ℚ => decide (b.2 ≤ a.2)) := by
      rw [classify_image, hk, ← hlen, List.take_length]
    rw [htake]
    have := hperm.map Prod.fst
    simpa [List.map_map, Function.comp] using this

theorem classify_image_label_mem {sim : Vec → Vec → ℚ}
    {libEmbeddings : List (String × List Vec)} {query : Vec}
    {top_k : Nat} {p : String × ℚ}
    (hp : p ∈ classify_image sim libEmbeddings query top_k) :
    ∃ lst, (p.1, lst) ∈ libEmbeddings := by
  have hp1 : p ∈ (libEmbeddings.map
      (fun kv =>
        (kv.1, kv.2.foldl (fun m e => max m (sim query e)) (-1)))) :=
    (List.mergeSort_perm _ _).mem_iff.mp
      ((List.take_sublist _ _).subset hp)
  obtain ⟨kv, hkv, hpe⟩ := List.mem_map.mp hp1
  exact ⟨kv.2, by rw [← hpe]; exact hkv⟩

theorem classifyLoop_spec (sim : Vec → Vec → ℚ)
    (encode : String → Option Vec)
    (libEmbeddings : List (String × List Vec)) (threshold : ℚ) :
    ∀ (ps : List String) (results : List (String × List String))
      (unclassified : List String),
      (∀ (k : String) (p' : String),
        (∃ xs, getVal results k = some xs ∧ p' ∈ xs) →
        ∃ xs, getVal (classifyLoop sim encode libEmbeddings threshold ps
          results unclassified).1 k = some xs ∧ p' ∈ xs)
      ∧ (∃ u', (classifyLoop sim encode libEmbeddings threshold ps
          results unclassified).2 = unclassified ++ u')
      ∧ (∀ p ∈ ps,
          (encode p = none →
            p ∈ (classifyLoop sim encode libEmbeddings threshold ps
              results unclassified).2)
          ∧ (∀ q, encode p = some q →
            (classify_image sim libEmbeddings q 1 = [] →
              p ∈ (classifyLoop sim encode libEmbeddings threshold ps
                results unclassified).2)
            ∧ (∀ (c : String) (s : ℚ) (rest : List (String × ℚ)),
                classify_image sim libEmbeddings q 1 = (c, s) :: rest →
                (threshold ≤ s →
                  ∃ xs, getVal (classifyLoop sim encode libEmbeddings
                    threshold ps results unclassified).1 c = some xs ∧
                      p ∈ xs)
                ∧ (s < threshold →
                  p ∈ (classifyLoop sim encode libEmbeddings threshold ps
                    results unclassified).2)))) := by
  intro ps
  induction ps with
  | nil =>
    intro results unclassified
    refine ⟨fun k p' h => h, ⟨[], by simp [classifyLoop]⟩, by simp⟩
  | cons p ps ih =>
    intro results unclassified
    rcases hE : encode p with _ | q
    · have hred : classifyLoop sim encode libEmbeddings threshold
          (p :: ps) results unclassified =
          classifyLoop sim encode libEmbeddings threshold ps results
            (unclassified ++ [p]) := by
        simp [classifyLoop, hE]
      rw [hred]
      obtain ⟨ha, ⟨u', hu⟩, hc⟩ := ih results (unclassified ++ [p])
      refine ⟨ha, ⟨[p] ++ u', by rw [hu, List.append_assoc]⟩, ?_⟩
      intro p₀ hp₀
      rcases List.mem_cons.mp hp₀ with rfl | hp₀'
      · refine ⟨fun _ => ?_, fun q hq => absurd (hE ▸ hq) (by simp)⟩
        rw [hu]
        exact List.mem_append_left _ (List.mem_append_right _ (by simp))
      · exact hc p₀ hp₀'
    · rcases hC : classify_image sim libEmbeddings q 1 with _ | ⟨⟨c, s⟩, rest⟩
      · have hred : classifyLoop sim encode libEmbeddings threshold
            (p :: ps) results unclassified =
            classifyLoop sim encode libEmbeddings threshold ps results
              (unclassified ++ [p]) := by
          simp [classifyLoop, hE, hC]
        rw [hred]
        obtain ⟨ha, ⟨u', hu⟩, hc⟩ := ih results (unclassified ++ [p])
        refine ⟨ha, ⟨[p] ++ u', by rw [hu, List.append_assoc]⟩, ?_⟩
        intro p₀ hp₀
        rcases List.mem_cons.mp hp₀ with rfl | hp₀'
        · refine ⟨fun h => absurd (hE ▸ h) (by simp), fun q' hq' => ?_⟩
          have hqq : q' = q := by
            rw [hE] at hq'
            exact (Option.some_injective _ hq').symm
          subst hqq
          refine ⟨fun _ => ?_, fun c' s' rest' hC' => ?_⟩
          · rw [hu]
            exact List.mem_append_left _
              (List.mem_append_right _ (by simp))
          · rw [hC] at hC'
            exact absurd hC' (by simp)
        · exact hc p₀ hp₀'
      · by_cases hT : threshold ≤ s
        · have hred : classifyLoop sim encode libEmbeddings threshold
              (p :: ps) results unclassified =
              classifyLoop sim encode libEmbeddings threshold ps
                (pushVal results c p) unclassified := by
            simp [classifyLoop, hE, hC, hT]
          rw [hred]
          obtain ⟨ha, hb, hc⟩ := ih (pushVal results c p) unclassified
          refine ⟨?_, hb, ?_⟩
          · intro k p' ⟨xs, hxs, hpx⟩
            by_cases hk : k = c
            · subst hk
              refine ha k p' ⟨(getVal results k).getD [] ++ [p], ?_, ?_⟩
              · exact getVal_pushVal_self results k p
              · rw [hxs]
                exact List.mem_append_left _ hpx
            · exact ha k p' ⟨xs, by
                rw [getVal_pushVal_ne p hk]; exact hxs, hpx⟩
          · intro p₀ hp₀
            rcases List.mem_cons.mp hp₀ with rfl | hp₀'
            · refine ⟨fun h => absurd (hE ▸ h) (by simp),
                fun q' hq' => ?_⟩
              have hqq : q' = q := by
                rw [hE] at hq'
                exact (Option.some_injective _ hq').symm
              subst hqq
              refine ⟨fun h => by rw [hC] at h; exact absurd h (by simp),
                fun c' s' rest' hC' => ?_⟩
              rw [hC] at hC'
              obtain ⟨⟨rfl, rfl⟩, rfl⟩ :
                  (c' = c ∧ s' = s) ∧ rest' = rest := by
                simpa using hC'.symm
              refine ⟨fun _ => ?_, fun hlt => absurd hT (not_le.mpr hlt)⟩
              refine ha c' p₀
                ⟨(getVal results c').getD [] ++ [p₀], ?_, ?_⟩
              · exact getVal_pushVal_self results c' p₀
              · exact List.mem_append_right _ (by simp)
            · exact hc p₀ hp₀'
        · have hred : classifyLoop sim encode libEmbeddings threshold
              (p :: ps) results unclassified =
              classifyLoop sim encode libEmbeddings threshold ps results
                (unclassified ++ [p]) := by
            simp [classifyLoop, hE, hC, hT]
          rw [hred]
          obtain ⟨ha, ⟨u', hu⟩, hc⟩ := ih results (unclassified ++ [p])
          refine ⟨ha, ⟨[p] ++ u', by rw [hu, List.append_assoc]⟩, ?_⟩
          intro p₀ hp₀
          rcases List.mem_cons.mp hp₀ with rfl | hp₀'
          · refine ⟨fun h => absurd (hE ▸ h) (by simp),
              fun q' hq' => ?_⟩
            have hqq : q' = q := by
              rw [hE] at hq'
              exact (Option.some_injective _ hq').symm
            subst hqq
            refine ⟨fun h => by rw [hC] at h; exact absurd h (by simp),
              fun c' s' rest' hC' => ?_⟩
            rw [hC] at hC'
            obtain ⟨⟨rfl, rfl⟩, rfl⟩ :
                (c' = c ∧ s' = s) ∧ rest' = rest := by
              simpa using hC'.symm
            refine ⟨fun hge => absurd hge hT, fun _ => ?_⟩
            rw [hu]
            exact List.mem_append_left _
              (List.mem_append_right _ (by simp))
          · exact hc p₀ hp₀'

/-- C3: batch classification routes every successfully-embedded item whose
best score reaches the threshold into its best category's bucket, and
every item whose best score misses the threshold or whose embedding failed
into the synthetic unclassified bucket, item by item (a failure never
aborts the batch); the threshold argument defaults to `0.0`. -/
theorem C3_classify_batch_spec (sim : Vec → Vec → ℚ)
    (encode : String → Option Vec)
    (libEmbeddings : List (String × List Vec))
    (image_paths : List String) (threshold : ℚ)
    (hlib : ∀ kv ∈ libEmbeddings,
      (kv : String × List Vec).1 ≠ unclassifiedLabel) :
    (∀ p ∈ image_paths,
      (encode p = none →
        ∃ xs, getVal (classify_images sim encode libEmbeddings
          image_paths threshold) unclassifiedLabel = some xs ∧ p ∈ xs)
      ∧ (∀ (q : Vec) (c : String) (s : ℚ) (rest : List (String × ℚ)),
          encode p = some q →
          classify_image sim libEmbeddings q 1 = (c, s) :: rest →
          (threshold ≤ s →
            ∃ xs, getVal (classify_images sim encode libEmbeddings
              image_paths threshold) c = some xs ∧ p ∈ xs)
          ∧ (s < threshold →
            ∃ xs, getVal (classify_images sim encode libEmbeddings
              image_paths threshold) unclassifiedLabel = some xs ∧
                p ∈ xs)))
    ∧ classify_images sim encode libEmbeddings image_paths
        = classify_images sim encode libEmbeddings image_paths 0 := by
  obtain ⟨ha, ⟨u', hu⟩, hc⟩ :=
    classifyLoop_spec sim encode libEmbeddings threshold image_paths [] []
  refine ⟨?_, rfl⟩
  intro p hp
  constructor
  · intro hE
    have hpu : p ∈ (classifyLoop sim encode libEmbeddings threshold
        image_paths [] []).2 := (hc p hp).1 hE
    have hne : (classifyLoop sim encode libEmbeddings threshold
        image_paths [] []).2 ≠ [] := List.ne_nil_of_mem hpu
    have hout : classify_images sim encode libEmbeddings image_paths
        threshold = setKey (classifyLoop sim encode libEmbeddings
          threshold image_paths [] []).1 unclassifiedLabel
          (classifyLoop sim encode libEmbeddings threshold image_paths
            [] []).2 := by
      rw [classify_images, if_neg hne]
    rw [hout]
    exact ⟨_, getVal_setKey_self _ _ _, hpu⟩
  · intro q c s rest hE hC
    have hcl : c ≠ unclassifiedLabel := by
      have hmem : ((c, s) : String × ℚ) ∈
          classify_image sim libEmbeddings q 1 := by
        rw [hC]
        exact List.mem_cons_self _ _
      obtain ⟨lst, hlst⟩ := classify_image_label_mem hmem
      exact hlib (c, lst) hlst
    constructor
    · intro hT
      obtain ⟨xs, hxs, hpx⟩ :=
        (((hc p hp).2 q hE).2 c s rest hC).1 hT
      by_cases hne : (classifyLoop sim encode libEmbeddings threshold
          image_paths [] []).2 = []
      · have hout : classify_images sim encode libEmbeddings image_paths
            threshold = (classifyLoop sim encode libEmbeddings threshold
              image_paths [] []).1 := by
          rw [classify_images, if_pos hne]
        rw [hout]
        exact ⟨xs, hxs, hpx⟩
      · have hout : classify_images sim encode libEmbeddings image_paths
            threshold = setKey (classifyLoop sim encode libEmbeddings
              threshold image_paths [] []).1 unclassifiedLabel
              (classifyLoop sim encode libEmbeddings threshold
                image_paths [] []).2 := by
          rw [classify_images, if_neg hne]
        rw [hout]
        refine ⟨xs, ?_, hpx⟩
        rw [getVal_setKey_ne _ hcl]
        exact hxs
    · intro hlt
      have hpu : p ∈ (classifyLoop sim encode libEmbeddings threshold
          image_paths [] []).2 :=
        (((hc p hp).2 q hE).2 c s rest hC).2 hlt
      have hne : (classifyLoop sim encode libEmbeddings threshold
          image_paths [] []).2 ≠ [] := List.ne_nil_of_mem hpu
      have hout : classify_images sim encode libEmbeddings image_paths
          threshold = setKey (classifyLoop sim encode libEmbeddings
            threshold image_paths [] []).1 unclassifiedLabel
            (classifyLoop sim encode libEmbeddings threshold image_paths
              [] []).2 := by
        rw [classify_images, if_neg hne]
      rw [hout]
      exact ⟨_, getVal_setKey_self _ _ _, hpu⟩

theorem C3_classify_batch_spec_witness :
    (∀ kv ∈ [("home", [[(1 : ℚ)]])],
      (kv : String × List Vec).1 ≠ unclassifiedLabel)
    ∧ ((fun (_ : String) => some ([1] : Vec)) "x" = some [1])
    ∧ classify_image dotQ [("home", [[1]])] [1] 1 = [("home", 1)]
    ∧ (0 : ℚ) ≤ 1
    ∧ ∃ xs, getVal (classify_images dotQ (fun _ => some [1])
        [("home", [[1]])] ["x"] 0) "home" = some xs ∧ "x" ∈ xs := by
  refine ⟨by simp [unclassifiedLabel], rfl,
    by norm_num [classify_image, dotQ], by norm_num, ?_⟩
  exact (((C3_classify_batch_spec dotQ (fun _ => some [1])
      [("home", [[1]])] ["x"] 0
      (by simp [unclassifiedLabel])).1 "x" (by simp)).2 [1] "home" 1 []
      rfl (by norm_num [classify_image, dotQ])).1 (by norm_num)

/-! ### Library mutation lemmas -/

theorem getVal_append_of_some {m m' : List (String × α)} {k : String}
    {v : α} (h : getVal m k = some v) : getVal (m ++ m') k = some v := by
  induction m with
  | nil => simp [getVal] at h
  | cons kv rest ih =>
    obtain ⟨k₀, v₀⟩ := kv
    by_cases hk : k₀ = k
    · simp only [getVal, if_pos hk] at h
      simp [getVal, hk, h]
    · simp only [getVal, if_neg hk] at h
      simp [getVal, hk, ih h]

theorem mem_updateKey_nodup {m : List (String × α)} {k : String}
    {f : α → α} {kv : String × α}
    (hnd : (m.map Prod.fst).Nodup) (h : kv ∈ updateKey m k f) :
    (kv ∈ m ∧ kv.1 ≠ k) ∨
      ∃ v, getVal m k = some v ∧ kv = (k, f v) := by
  induction m with
  | nil => simp [updateKey] at h
  | cons kv₀ rest ih =>
    obtain ⟨k₀, v₀⟩ := kv₀
    simp only [List.map_cons, List.nodup_cons] at hnd
    by_cases hk : k₀ = k
    · subst hk
      rw [updateKey, if_pos rfl, List.mem_cons] at h
      rcases h with rfl | h
      · exact Or.inr ⟨v₀, by simp [getVal], rfl⟩
      · refine Or.inl ⟨List.mem_cons_of_mem _ h, fun he => hnd.1 ?_⟩
        rw [← he]
        exact List.mem_map.mpr ⟨kv, h, rfl⟩
    · rw [updateKey, if_neg hk, List.mem_cons] at h
      rcases h with rfl | h
      · exact Or.inl ⟨List.mem_cons_self _ _, hk⟩
      · rcases ih hnd.2 h with ⟨hm, hne⟩ | ⟨v, hv, he⟩
        · exact Or.inl ⟨List.mem_cons_of_mem _ hm, hne⟩
        · exact Or.inr ⟨v, by simp [getVal, hk, hv], he⟩

theorem add_case_count (st : CaseLibraryState)
    (case_name image_path : String) (encode : String → Option Vec)
    (description : String) (v : Vec) (hE : encode image_path = some v) :
    (add_case st case_name image_path encode description).1 = true
    ∧ get_case_count (add_case st case_name image_path encode
        description).2.cases case_name
      = get_case_count st.cases case_name + 1 := by
  rw [add_case]
  rw [hE]
  refine ⟨rfl, ?_⟩
  by_cases h : getVal st.cases case_name = none
  · simp only [get_case_count, if_pos h]
    rw [getVal_updateKey_self]
    rw [getVal_append_of_none h]
    simp [getVal, h]
  · simp only [get_case_count, if_neg h]
    rw [getVal_updateKey_self]
    rcases Option.ne_none_iff_exists'.mp h with ⟨lst, hlst⟩
    simp [hlst]

/-- C9: with a successfully-vectorised image, `add_case` returns success
and appends a new entry to the named category (the count always grows by
one, with no deduplication); the count of an absent label is `0`, and two
successive additions under a fresh label yield a count of `2`. -/
theorem C9_add_case_spec (st : CaseLibraryState)
    (case_name image_path : String) (encode : String → Option Vec)
    (description : String) (v : Vec) (hE : encode image_path = some v) :
    (add_case st case_name image_path encode description).1 = true
    ∧ get_case_count (add_case st case_name image_path encode
        description).2.cases case_name
      = get_case_count st.cases case_name + 1
    ∧ (∀ name, getVal st.cases name = none →
        get_case_count st.cases name = 0)
    ∧ (∀ (p₂ : String) (v₂ : Vec) (d₂ : String), encode p₂ = some v₂ →
        getVal st.cases case_name = none →
        get_case_count (add_case (add_case st case_name image_path encode
          description).2 case_name p₂ encode d₂).2.cases case_name
          = 2) := by
  obtain ⟨hb, hcount⟩ := add_case_count st case_name image_path encode
    description v hE
  refine ⟨hb, hcount, ?_, ?_⟩
  · intro name hname
    simp [get_case_count, hname]
  · intro p₂ v₂ d₂ hE₂ habsent
    obtain ⟨_, hcount₂⟩ := add_case_count
      (add_case st case_name image_path encode description).2 case_name
      p₂ encode d₂ v₂ hE₂
    rw [hcount₂, hcount]
    simp [get_case_count, habsent]

theorem C9_add_case_spec_witness :
    ((fun (_ : String) => some ([1] : Vec)) "p" = some [1])
    ∧ (add_case ⟨[], []⟩ "a" "p" (fun _ => some [1]) "").1 = true
    ∧ get_case_count (add_case (add_case ⟨[], []⟩ "a" "p"
        (fun _ => some [1]) "").2 "a" "q" (fun _ => some [1]) "").2.cases
        "a" = 2 := by
  refine ⟨rfl, ?_, ?_⟩
  · exact (C9_add_case_spec ⟨[], []⟩ "a" "p" (fun _ => some [1]) "" [1]
      rfl).1
  · exact (C9_add_case_spec ⟨[], []⟩ "a" "p" (fun _ => some [1]) "" [1]
      rfl).2.2.2 "q" [1] "" rfl rfl

theorem remove_case_none_eq {st : CaseLibraryState} {case_name : String}
    {lst : List CaseInfo} (hlk : getVal st.cases case_name = some lst) :
    remove_case st case_name none =
      (true, ⟨delKey st.cases case_name,
        delKey st.embeddings case_name⟩) := by
  simp [remove_case, hlk]

theorem remove_case_idx_eq {st : CaseLibraryState} {case_name : String}
    {lst : List CaseInfo} {i : Nat}
    (hlk : getVal st.cases case_name = some lst) (hi : i < lst.length) :
    remove_case st case_name (some i) =
      (if (lst.eraseIdx i).length = 0 then
        (true,
          ⟨delKey (updateKey st.cases case_name
              (fun l => l.eraseIdx i)) case_name,
            delKey (updateKey st.embeddings case_name
              (fun l => l.eraseIdx i)) case_name⟩)
      else
        (true,
          ⟨updateKey st.cases case_name (fun l => l.eraseIdx i),
            updateKey st.embeddings case_name
              (fun l => l.eraseIdx i)⟩)) := by
  simp [remove_case, hlk, hi]

theorem remove_case_oob_eq {st : CaseLibraryState} {case_name : String}
    {lst : List CaseInfo} {i : Nat}
    (hlk : getVal st.cases case_name = some lst)
    (hi : lst.length ≤ i) :
    remove_case st case_name (some i) = (false, st) := by
  simp [remove_case, hlk, Nat.not_lt.mpr hi]

/-- C6: `remove_case` with no index deletes the entire category; with a
valid index it deletes exactly that entry, deleting the category when it
becomes empty (a one-entry category disappears after removing entry 0);
with an out-of-range index it reports failure and leaves the library
unchanged; other categories are never touched. -/
theorem C6_remove_case_spec (st : CaseLibraryState) (case_name : String)
    (lst : List CaseInfo) (i : Nat)
    (hnd : (st.cases.map Prod.fst).Nodup)
    (hlk : getVal st.cases case_name = some lst) :
    ((remove_case st case_name none).1 = true
      ∧ getVal (remove_case st case_name none).2.cases case_name = none
      ∧ ∀ k, k ≠ case_name →
          getVal (remove_case st case_name none).2.cases k =
            getVal st.cases k)
    ∧ (i < lst.length →
        (remove_case st case_name (some i)).1 = true
        ∧ getVal (remove_case st case_name (some i)).2.cases case_name =
            (if lst.length = 1 then none else some (lst.eraseIdx i))
        ∧ ∀ k, k ≠ case_name →
            getVal (remove_case st case_name (some i)).2.cases k =
              getVal st.cases k)
    ∧ (lst.length ≤ i →
        (remove_case st case_name (some i)).1 = false
        ∧ (remove_case st case_name (some i)).2 = st) := by
  refine ⟨?_, ?_, ?_⟩
  · rw [remove_case_none_eq hlk]
    exact ⟨rfl, getVal_delKey_self hnd, fun k hk => getVal_delKey_ne hk⟩
  · intro hi
    rw [remove_case_idx_eq hlk hi]
    have hlen : (lst.eraseIdx i).length = lst.length - 1 := by
      rw [List.length_eraseIdx, if_pos hi]
    by_cases hz : (lst.eraseIdx i).length = 0
    · have hone : lst.length = 1 := by omega
      rw [if_pos hz]
      refine ⟨rfl, ?_, ?_⟩
      · rw [if_pos hone]
        apply getVal_delKey_self
        rw [map_fst_updateKey]
        exact hnd
      · intro k hk
        rw [getVal_delKey_ne hk, getVal_updateKey_ne _ hk]
    · have hone : lst.length ≠ 1 := by omega
      rw [if_neg hz]
      refine ⟨rfl, ?_, ?_⟩
      · rw [if_neg hone, getVal_updateKey_self, hlk]
        rfl
      · intro k hk
        rw [getVal_updateKey_ne _ hk]
  · intro hi
    rw [remove_case_oob_eq hlk hi]
    exact ⟨rfl, rfl⟩

theorem C6_remove_case_spec_witness :
    ((([(("a", [⟨"p", some [1], ""⟩]) : String × List CaseInfo)]).map
        Prod.fst).Nodup)
    ∧ getVal [("a", [(⟨"p", some [1], ""⟩ : CaseInfo)])] "a"
        = some [⟨"p", some [1], ""⟩]
    ∧ (remove_case ⟨[("a", [⟨"p", some [1], ""⟩])], [("a", [[1]])]⟩ "a"
        none).1 = true
    ∧ getVal (remove_case ⟨[("a", [⟨"p", some [1], ""⟩])],
        [("a", [[1]])]⟩ "a" (some 0)).2.cases "a" = none
    ∧ (remove_case ⟨[("a", [⟨"p", some [1], ""⟩])], [("a", [[1]])]⟩ "a"
        (some 3)).1 = false := by
  refine ⟨by simp, rfl, ?_, ?_, ?_⟩
  · exact (C6_remove_case_spec
      ⟨[("a", [⟨"p", some [1], ""⟩])], [("a", [[1]])]⟩ "a"
      [⟨"p", some [1], ""⟩] 0 (by simp) rfl).1.1
  · have h := (C6_remove_case_spec
      ⟨[("a", [⟨"p", some [1], ""⟩])], [("a", [[1]])]⟩ "a"
      [⟨"p", some [1], ""⟩] 0 (by simp) rfl).2.1 (by norm_num)
    simpa using h.2.1
  · exact ((C6_remove_case_spec
      ⟨[("a", [⟨"p", some [1], ""⟩])], [("a", [[1]])]⟩ "a"
      [⟨"p", some [1], ""⟩] 3 (by simp) rfl).2.2 (by norm_num)).1

/-! ### Loading: legacy shapes and entries without a vector -/

/-- C4 counterexample: loading a list-shaped category in which the second
entry has no `embedding` field keeps that entry in the `cases` mapping
(only the `embeddings` cache filters it out), so a vectorless entry is
not skipped from the loaded library. -/
theorem C4_missing_vector_kept_counterexample :
    getVal (load_library [("a", CaseData.multi
        [⟨"p1", some [1], ""⟩, ⟨"p2", none, ""⟩])]).cases "a"
      = some [⟨"p1", some [1], ""⟩, ⟨"p2", none, ""⟩]
    ∧ (⟨"p2", none, ""⟩ : CaseInfo).embedding = none
    ∧ getVal (load_library [("a", CaseData.multi
        [⟨"p1", some [1], ""⟩, ⟨"p2", none, ""⟩])]).embeddings "a"
      = some [[1]] :=
  ⟨rfl, rfl, rfl⟩

/-- C4 (amended): `load` accepts both persisted shapes — a dict-shaped
value carrying a vector loads exactly like a one-element list; a
list-shaped value stores all its entries in `cases` while the
`embeddings` cache keeps precisely the vectors of the entries that carry
one (a vectorless entry is silently excluded from the cache but kept in
`cases`, with no fatal error); a dict-shaped value missing its vector is
silently dropped altogether. -/
theorem C4_load_shapes_spec (l : String) (info : CaseInfo)
    (lst : List CaseInfo) (v : Vec) :
    (info.embedding = some v →
      load_library [(l, CaseData.single info)] =
        load_library [(l, CaseData.multi [info])])
    ∧ (load_library [(l, CaseData.multi lst)]).cases = [(l, lst)]
    ∧ (load_library [(l, CaseData.multi lst)]).embeddings =
        [(l, lst.filterMap (fun i => i.embedding))]
    ∧ (info.embedding = none →
        load_library [(l, CaseData.single info)] = ⟨[], []⟩) := by
  refine ⟨?_, rfl, rfl, ?_⟩
  · intro h
    simp [load_library, loadItem, setKey, List.filterMap, h]
  · intro h
    simp [load_library, loadItem, h]

theorem C4_load_shapes_spec_witness :
    ((⟨"p", some [1], ""⟩ : CaseInfo).embedding = some [1]
      ∧ load_library [("a", CaseData.single ⟨"p", some [1], ""⟩)] =
          load_library [("a", CaseData.multi [⟨"p", some [1], ""⟩])])
    ∧ ((⟨"q", none, ""⟩ : CaseInfo).embedding = none
      ∧ load_library [("a", CaseData.single ⟨"q", none, ""⟩)]
          = ⟨[], []⟩) :=
  ⟨⟨rfl, (C4_load_shapes_spec "a" ⟨"p", some [1], ""⟩ [] [1]).1 rfl⟩,
    ⟨rfl, (C4_load_shapes_spec "a" ⟨"q", none, ""⟩ [] []).2.2.2 rfl⟩⟩

/-! ### The library representation invariant -/

theorem getVal_append_singleton_ne {m : List (String × α)}
    {k cn : String} (x : α) (h : k ≠ cn) :
    getVal (m ++ [(cn, x)]) k = getVal m k := by
  rcases hm : getVal m k with _ | v
  · rw [getVal_append_of_none hm]
    simp [getVal, Ne.symm h]
  · rw [getVal_append_of_some hm]

theorem getD_concat_length (l : List α) (x d : α) :
    (l ++ [x]).getD l.length d = x := by
  induction l with
  | nil => rfl
  | cons a l ih => simpa [List.getD_cons_succ] using ih

theorem add_case_some_absent_eq {st : CaseLibraryState}
    {case_name image_path : String} {encode : String → Option Vec}
    {description : String} {v : Vec} (hE : encode image_path = some v)
    (habs : getVal st.cases case_name = none) :
    add_case st case_name image_path encode description =
      (true,
        ⟨updateKey (st.cases ++ [(case_name, [])]) case_name
            (fun l => l ++ [⟨image_path, some v, description⟩]),
          updateKey (st.embeddings ++ [(case_name, [])]) case_name
            (fun l => l ++ [v])⟩) := by
  simp [add_case, hE, habs]

theorem add_case_some_present_eq {st : CaseLibraryState}
    {case_name image_path : String} {encode : String → Option Vec}
    {description : String} {v : Vec} (hE : encode image_path = some v)
    (hpres : getVal st.cases case_name ≠ none) :
    add_case st case_name image_path encode description =
      (true,
        ⟨updateKey st.cases case_name
            (fun l => l ++ [⟨image_path, some v, description⟩]),
          updateKey st.embeddings case_name (fun l => l ++ [v])⟩) := by
  simp [add_case, hE, hpres]

theorem add_case_fail_eq {st : CaseLibraryState}
    {case_name image_path : String} {encode : String → Option Vec}
    {description : String} (hE : encode image_path = none) :
    add_case st case_name image_path encode description = (false, st) :=
  by simp [add_case, hE]

theorem remove_case_notfound_eq {st : CaseLibraryState}
    {case_name : String} {case_index : Option Nat}
    (hlk : getVal st.cases case_name = none) :
    remove_case st case_name case_index = (false, st) := by
  simp [remove_case, hlk]

theorem add_case_invariant (st : CaseLibraryState)
    (case_name image_path : String) (encode : String → Option Vec)
    (description : String) (hinv : LibraryInvariant st) :
    LibraryInvariant (add_case st case_name image_path encode
      description).2 := by
  obtain ⟨hnd1, hnd2, hiff, halign, hne⟩ := hinv
  rcases hE : encode image_path with _ | v
  · rw [add_case_fail_eq hE]
    exact ⟨hnd1, hnd2, hiff, halign, hne⟩
  by_cases habs : getVal st.cases case_name = none
  · have habs2 : getVal st.embeddings case_name = none := by
      rcases h2 : getVal st.embeddings case_name with _ | e
      · rfl
      · exact absurd ((hiff case_name).mpr (by rw [h2]; rfl))
          (by rw [habs]; simp)
    rw [add_case_some_absent_eq hE habs]
    have hnotin1 : case_name ∉ st.cases.map Prod.fst :=
      getVal_eq_none.mp habs
    have hnotin2 : case_name ∉ st.embeddings.map Prod.fst :=
      getVal_eq_none.mp habs2
    have hnd1' : ((st.cases ++
        [(case_name, ([] : List CaseInfo))]).map Prod.fst).Nodup := by
      rw [List.map_append]
      refine hnd1.append (List.nodup_singleton _) ?_
      intro x hx hxs
      simp only [List.map_cons, List.map_nil, List.mem_singleton] at hxs
      exact hnotin1 (hxs ▸ hx)
    have hnd2' : ((st.embeddings ++
        [(case_name, ([] : List Vec))]).map Prod.fst).Nodup := by
      rw [List.map_append]
      refine hnd2.append (List.nodup_singleton _) ?_
      intro x hx hxs
      simp only [List.map_cons, List.map_nil, List.mem_singleton] at hxs
      exact hnotin2 (hxs ▸ hx)
    refine ⟨?_, ?_, ?_, ?_, ?_⟩
    · rw [map_fst_updateKey]
      exact hnd1'
    · rw [map_fst_updateKey]
      exact hnd2'
    · intro k
      by_cases hk : k = case_name
      · subst hk
        rw [getVal_updateKey_self, getVal_updateKey_self,
          getVal_append_of_none habs, getVal_append_of_none habs2]
        simp [getVal]
      · rw [getVal_updateKey_ne _ hk, getVal_updateKey_ne _ hk,
          getVal_append_singleton_ne _ hk,
          getVal_append_singleton_ne _ hk]
        exact hiff k
    · intro k lst elst h1 h2
      by_cases hk : k = case_name
      · subst hk
        rw [getVal_updateKey_self, getVal_append_of_none habs] at h1
        rw [getVal_updateKey_self, getVal_append_of_none habs2] at h2
        simp only [getVal, eq_self_iff_true, if_true, Option.map_some',
          List.nil_append, Option.some.injEq] at h1 h2
        subst h1
        subst h2
        refine ⟨rfl, ?_⟩
        intro i hi
        have hi0 : i = 0 := by
          simpa using hi
        subst hi0
        rfl
      · rw [getVal_updateKey_ne _ hk,
          getVal_append_singleton_ne _ hk] at h1
        rw [getVal_updateKey_ne _ hk,
          getVal_append_singleton_ne _ hk] at h2
        exact halign k lst elst h1 h2
    · intro kv hkv
      rcases mem_updateKey_nodup hnd1' hkv with ⟨hm, hne'⟩ | ⟨v₀, _, rfl⟩
      · rcases List.mem_append.mp hm with hm' | hm'
        · exact hne kv hm'
        · rw [List.mem_singleton] at hm'
          exact absurd (by rw [hm']) hne'
      · simp
  · rcases Option.ne_none_iff_exists'.mp habs with ⟨lst0, hlst0⟩
    have hsome2 : (getVal st.embeddings case_name).isSome :=
      (hiff case_name).mp (by rw [hlst0]; rfl)
    rcases Option.isSome_iff_exists.mp hsome2 with ⟨elst0, helst0⟩
    obtain ⟨hlen0, halign0⟩ := halign case_name lst0 elst0 hlst0 helst0
    rw [add_case_some_present_eq hE habs]
    refine ⟨?_, ?_, ?_, ?_, ?_⟩
    · rw [map_fst_updateKey]
      exact hnd1
    · rw [map_fst_updateKey]
      exact hnd2
    · intro k
      by_cases hk : k = case_name
      · subst hk
        rw [getVal_updateKey_self, getVal_updateKey_self, hlst0, helst0]
        simp
      · rw [getVal_updateKey_ne _ hk, getVal_updateKey_ne _ hk]
        exact hiff k
    · intro k lst elst h1 h2
      by_cases hk : k = case_name
      · subst hk
        rw [getVal_updateKey_self, hlst0] at h1
        rw [getVal_updateKey_self, helst0] at h2
        simp only [Option.map_some', Option.some.injEq] at h1 h2
        subst h1
        subst h2
        constructor
        · simp [hlen0]
        · intro i hi
          rw [List.length_append, List.length_cons, List.length_nil]
            at hi
          by_cases hilt : i < lst0.length
          · rw [List.getD_append _ _ _ _ hilt,
              List.getD_append _ _ _ _ (by rw [hlen0]; exact hilt)]
            exact halign0 i hilt
          · have hieq : i = lst0.length := by omega
            subst hieq
            rw [getD_concat_length, ← hlen0, getD_concat_length]
      · rw [getVal_updateKey_ne _ hk] at h1
        rw [getVal_updateKey_ne _ hk] at h2
        exact halign k lst elst h1 h2
    · intro kv hkv
      rcases mem_updateKey_nodup hnd1 hkv with ⟨hm, _⟩ | ⟨v₀, _, rfl⟩
      · exact hne kv hm
      · simp

theorem delKey_nodup_keys {m : List (String × α)} {k : String}
    (h : (m.map Prod.fst).Nodup) :
    ((delKey m k).map Prod.fst).Nodup :=
  ((delKey_sublist m k).map Prod.fst).nodup h

theorem remove_case_invariant (st : CaseLibraryState)
    (case_name : String) (case_index : Option Nat)
    (hinv : LibraryInvariant st) :
    LibraryInvariant (remove_case st case_name case_index).2 := by
  obtain ⟨hnd1, hnd2, hiff, halign, hne⟩ := hinv
  rcases hlk : getVal st.cases case_name with _ | lst
  · rw [remove_case_notfound_eq hlk]
    exact ⟨hnd1, hnd2, hiff, halign, hne⟩
  rcases case_index with _ | i
  · rw [remove_case_none_eq hlk]
    refine ⟨delKey_nodup_keys hnd1, delKey_nodup_keys hnd2, ?_, ?_, ?_⟩
    · intro k
      by_cases hk : k = case_name
      · subst hk
        rw [getVal_delKey_self hnd1, getVal_delKey_self hnd2]
        exact Iff.rfl
      · rw [getVal_delKey_ne hk, getVal_delKey_ne hk]
        exact hiff k
    · intro k lst' elst' h1 h2
      by_cases hk : k = case_name
      · subst hk
        rw [getVal_delKey_self hnd1] at h1
        exact absurd h1 (by simp)
      · rw [getVal_delKey_ne hk] at h1
        rw [getVal_delKey_ne hk] at h2
        exact halign k lst' elst' h1 h2
    · intro kv hkv
      exact hne kv ((delKey_sublist _ _).subset hkv)
  by_cases hi : i < lst.length
  · rw [remove_case_idx_eq hlk hi]
    have hndu1 : ((updateKey st.cases case_name
        (fun l => l.eraseIdx i)).map Prod.fst).Nodup := by
      rw [map_fst_updateKey]
      exact hnd1
    have hndu2 : ((updateKey st.embeddings case_name
        (fun l => l.eraseIdx i)).map Prod.fst).Nodup := by
      rw [map_fst_updateKey]
      exact hnd2
    have hsome2 : (getVal st.embeddings case_name).isSome :=
      (hiff case_name).mp (by rw [hlk]; rfl)
    rcases Option.isSome_iff_exists.mp hsome2 with ⟨elst, helst⟩
    obtain ⟨hlen0, halign0⟩ := halign case_name lst elst hlk helst
    by_cases hz : (lst.eraseIdx i).length = 0
    · rw [if_pos hz]
      refine ⟨delKey_nodup_keys hndu1, delKey_nodup_keys hndu2, ?_, ?_,
        ?_⟩
      · intro k
        by_cases hk : k = case_name
        · subst hk
          rw [getVal_delKey_self hndu1, getVal_delKey_self hndu2]
          exact Iff.rfl
        · rw [getVal_delKey_ne hk, getVal_delKey_ne hk,
            getVal_updateKey_ne _ hk, getVal_updateKey_ne _ hk]
          exact hiff k
      · intro k lst' elst' h1 h2
        by_cases hk : k = case_name
        · subst hk
          rw [getVal_delKey_self hndu1] at h1
          exact absurd h1 (by simp)
        · rw [getVal_delKey_ne hk, getVal_updateKey_ne _ hk] at h1
          rw [getVal_delKey_ne hk, getVal_updateKey_ne _ hk] at h2
          exact halign k lst' elst' h1 h2
      · intro kv hkv
        have hkv' : kv ∈ updateKey st.cases case_name
            (fun l => l.eraseIdx i) := (delKey_sublist _ _).subset hkv
        have hkne : kv.1 ≠ case_name := by
          intro he
          have hmem : kv.1 ∈ (delKey (updateKey st.cases case_name
              (fun l => l.eraseIdx i)) case_name).map Prod.fst :=
            List.mem_map.mpr ⟨kv, hkv, rfl⟩
          rw [he] at hmem
          exact getVal_eq_none.mp
            (getVal_delKey_self (k := case_name) hndu1) hmem
        rcases mem_updateKey_nodup hnd1 hkv' with ⟨hm, _⟩ | ⟨v₀, _, he⟩
        · exact hne kv hm
        · exact absurd (by rw [he]) hkne
    · rw [if_neg hz]
      refine ⟨hndu1, hndu2, ?_, ?_, ?_⟩
      · intro k
        by_cases hk : k = case_name
        · subst hk
          rw [getVal_updateKey_self, getVal_updateKey_self, hlk, helst]
          simp
        · rw [getVal_updateKey_ne _ hk, getVal_updateKey_ne _ hk]
          exact hiff k
      · intro k lst' elst' h1 h2
        by_cases hk : k = case_name
        · subst hk
          rw [getVal_updateKey_self, hlk] at h1
          rw [getVal_updateKey_self, helst] at h2
          simp only [Option.map_some', Option.some.injEq] at h1 h2
          subst h1
          subst h2
          have hlen1 : (lst.eraseIdx i).length = lst.length - 1 := by
            rw [List.length_eraseIdx, if_pos hi]
          have hlen2 : (elst.eraseIdx i).length = elst.length - 1 := by
            rw [List.length_eraseIdx, if_pos (by omega)]
          constructor
          · omega
          · intro j hj
            rw [getD_eraseIdx, getD_eraseIdx]
            by_cases hji : j < i
            · rw [if_pos hji, if_pos hji]
              exact halign0 j (by omega)
            · rw [if_neg hji, if_neg hji]
              exact halign0 (j + 1) (by omega)
        · rw [getVal_updateKey_ne _ hk] at h1
          rw [getVal_updateKey_ne _ hk] at h2
          exact halign k lst' elst' h1 h2
      · intro kv hkv
        rcases mem_updateKey_nodup hnd1 hkv with ⟨hm, _⟩ | ⟨v₀, hv₀, he⟩
        · exact hne kv hm
        · rw [hlk] at hv₀
          obtain rfl : lst = v₀ := Option.some.inj hv₀
          rw [he]
          intro hemp
          have hemp' : lst.eraseIdx i = [] := hemp
          exact hz (by rw [hemp']; rfl)
  · rw [remove_case_oob_eq hlk (by omega)]
    exact ⟨hnd1, hnd2, hiff, halign, hne⟩

/-- C10: both library mutations preserve the representation invariant —
`cases` and `embeddings` always hold exactly the same labels, per label
the cached vectors align position by position with the vectors stored in
the case records, and no label maps to an empty entry list. -/
theorem C10_library_invariant_preserved (st : CaseLibraryState)
    (hinv : LibraryInvariant st) :
    (∀ (case_name image_path : String) (encode : String → Option Vec)
        (description : String),
      LibraryInvariant (add_case st case_name image_path encode
        description).2)
    ∧ (∀ (case_name : String) (case_index : Option Nat),
      LibraryInvariant (remove_case st case_name case_index).2) :=
  ⟨fun case_name image_path encode description =>
      add_case_invariant st case_name image_path encode description hinv,
    fun case_name case_index =>
      remove_case_invariant st case_name case_index hinv⟩

theorem C10_library_invariant_preserved_witness :
    LibraryInvariant ⟨[], []⟩
    ∧ LibraryInvariant (add_case ⟨[], []⟩ "a" "p" (fun _ => some [1])
        "").2
    ∧ LibraryInvariant (remove_case ⟨[], []⟩ "a" none).2 := by
  have hinv : LibraryInvariant (⟨[], []⟩ : CaseLibraryState) := by
    refine ⟨List.nodup_nil, List.nodup_nil, fun k => Iff.rfl, ?_,
      by simp⟩
    intro k lst elst h1 _
    exact absurd h1 (by simp [getVal])
  exact ⟨hinv,
    (C10_library_invariant_preserved ⟨[], []⟩ hinv).1 "a" "p"
      (fun _ => some [1]) "",
    (C10_library_invariant_preserved ⟨[], []⟩ hinv).2 "a" none⟩
